import Mathlib

/-!
Shallow embedding of the MosaicConverter pipeline (src/main.py).

Pixels and average colors are modelled as rational triples; the external
collaborators (md5 hashing via `hashlib`, image decoding via PIL, float
formatting/parsing of the three channel averages) are abstracted as the
fields of a `Codec`.  The tile directory is a list of `DirEntry` in
`scandir` iteration order; a file whose bytes cannot be read is modelled
with `contents = none` (an `IOError` at hashing time).
-/

namespace Mosaic

/-- An RGB value: three rational components. -/
abbrev Color := ℚ × ℚ × ℚ

/-- A decoded image, flattened to its pixel list (only the pixel multiset
matters for channel averaging). -/
abbrev Grid := List Color

/-- `numpy.average(pixel_values.transpose(2, 0, 1).reshape(3, -1), axis=1)`:
the per-channel mean over all pixels of a decoded tile. -/
def averageColor (g : Grid) : Color :=
  (((g.map fun p => p.1).sum) / g.length,
   ((g.map fun p => p.2.1).sum) / g.length,
   ((g.map fun p => p.2.2).sum) / g.length)

/-- Truncation toward zero, as a numpy float-to-int cast performs. -/
def truncQ (q : ℚ) : ℤ :=
  if 0 ≤ q then ⌊q⌋ else -⌊-q⌋

/-- Per-channel truncation toward zero: this is what the assignment of a
float vector into the `dtype=int` array of `parse_mosaic_palette` does. -/
def truncColor (col : Color) : Color :=
  ((truncQ col.1 : ℚ), (truncQ col.2.1 : ℚ), (truncQ col.2.2 : ℚ))

/-- The external collaborators of the core pipeline. -/
structure Codec where
  /-- `get_image_hash`: md5 hexdigest of the file bytes. -/
  hash : String → String
  /-- `get_image` on a tile path: decoded pixel grid, or `none` on an open,
  size-validation (48x48), mode (RGB) or conversion failure. -/
  decode : String → Option Grid
  /-- The f-string `f"{v0} {v1} {v2}"` serialization of the three channel
  averages. -/
  serColor : Color → String
  /-- `numpy.fromstring(line, dtype=float, sep=' ')`: the three floats of a
  serialized color line. -/
  parseColor : String → Color
  /-- `Image.open` in `load_used_images`: the opened image (identified with
  the file bytes), or `none` when opening raises. -/
  openImage : String → Option String

/-- One `scandir` result: file name, readable bytes (`none` = `IOError`
when hashing), and the `is_file()` flag. -/
structure DirEntry where
  name : String
  contents : Option String
  isFile : Bool
deriving DecidableEq

/-- Python's `list.index`: index of the first occurrence. -/
def listIndex (x : String) : List String → Nat
  | [] => 0
  | a :: rest => if a = x then 0 else listIndex x rest + 1

/-- `parse_mosaic_palette`: the flat cache lines are consumed two at a time,
line `2*i` as the fingerprint and line `2*i+1` parsed as three floats which
are then stored into a `dtype=int` array (hence `truncColor`).  A trailing
unpaired line is dropped by the `len // 2` bound. -/
def parse_mosaic_palette (c : Codec) : List String → List String × List Color
  | f :: colLine :: rest =>
    let r := parse_mosaic_palette c rest
    (f :: r.1, truncColor (c.parseColor colLine) :: r.2)
  | _ => ([], [])

/-- The cache lines contributed by one directory entry in the
`get_mosaic_palette` loop.  Mirrors the loop body: non-files and the
`.gitkeep` placeholder are skipped; an unreadable file raises at hashing
and is skipped by the bare `except`; a fingerprint absent from the loaded
record is decoded (skip on failure), otherwise the stored color line is
reused.  In the reuse branch the fingerprint is appended *before* the
stored color is read, so an out-of-range `index + 1` (an `IndexError`
caught by the `except`) leaves a dangling fingerprint line. -/
def entryLines (c : Codec) (saved : List String) (e : DirEntry) : List String :=
  if e.isFile = false ∨ e.name = ".gitkeep" then []
  else
    match e.contents with
    | none => []
    | some b =>
      if c.hash b ∉ saved then
        match c.decode b with
        | none => []
        | some g => [c.hash b, c.serColor (averageColor g)]
      else
        match saved.get? (listIndex (c.hash b) saved + 1) with
        | some col => [c.hash b, col]
        | none => [c.hash b]

/-- Number of `get_image` calls made for one directory entry. -/
def entryDecodes (c : Codec) (saved : List String) (e : DirEntry) : Nat :=
  if e.isFile = false ∨ e.name = ".gitkeep" then 0
  else
    match e.contents with
    | none => 0
    | some b => if c.hash b ∉ saved then 1 else 0

/-- Files removed from the tile directory for one entry: only a failed
decode with the delete flag set removes the file. -/
def entryDeleted (c : Codec) (deleteFlag : Bool) (saved : List String) (e : DirEntry) :
    List String :=
  if e.isFile = false ∨ e.name = ".gitkeep" then []
  else
    match e.contents with
    | none => []
    | some b =>
      if c.hash b ∉ saved then
        match c.decode b with
        | none => if deleteFlag then [e.name] else []
        | some _ => []
      else []

/-- The observable outcome of the `get_mosaic_palette` directory loop. -/
structure RunState where
  cache : List String
  decodes : Nat
  deleted : List String
deriving DecidableEq

/-- The `get_mosaic_palette` loop over the directory entries.  The loop
body never reads the cache list it is appending to (membership and index
lookups are against the *loaded* `saved_values` only), so the run is the
in-order concatenation of the per-entry effects. -/
def get_mosaic_palette_run (c : Codec) (deleteFlag : Bool) (saved : List String) :
    List DirEntry → RunState
  | [] => ⟨[], 0, []⟩
  | e :: rest =>
    let r := get_mosaic_palette_run c deleteFlag saved rest
    ⟨entryLines c saved e ++ r.cache,
     entryDecodes c saved e + r.decodes,
     entryDeleted c deleteFlag saved e ++ r.deleted⟩

/-- `get_mosaic_palette`: reconcile, then return the parsed palette. -/
def get_mosaic_palette (c : Codec) (deleteFlag : Bool) (saved : List String)
    (entries : List DirEntry) : List String × List Color :=
  parse_mosaic_palette c (get_mosaic_palette_run c deleteFlag saved entries).cache

/-- Whether `get_mosaic_palette` rewrites the cache file:
`saved_values != cache`. -/
def cacheWritten (c : Codec) (deleteFlag : Bool) (saved : List String)
    (entries : List DirEntry) : Bool :=
  decide (saved ≠ (get_mosaic_palette_run c deleteFlag saved entries).cache)

/-- The cache file after a run: loaded lines are the file content when it
exists (else the empty record), and the file is overwritten exactly when
the new flat sequence differs from the loaded one. -/
def cacheFileAfter (c : Codec) (deleteFlag : Bool) (cacheFile : Option (List String))
    (entries : List DirEntry) : Option (List String) :=
  let saved := cacheFile.getD []
  let r := get_mosaic_palette_run c deleteFlag saved entries
  if saved ≠ r.cache then some r.cache else cacheFile

/-- `numpy.average(numpy.abs(palette_colors - pixel), axis=1)` for one
palette color: the mean absolute per-channel difference. -/
def meanAbsDist (a b : Color) : ℚ :=
  (|a.1 - b.1| + |a.2.1 - b.2.1| + |a.2.2 - b.2.2|) / 3

/-- `numpy.argmin`: index of the first occurrence of the minimum. -/
def argminIdx : List ℚ → Nat
  | [] => 0
  | [_] => 0
  | x :: y :: rest =>
    if x ≤ (y :: rest).getD (argminIdx (y :: rest)) 0 then 0
    else argminIdx (y :: rest) + 1

/-- Index of the palette entry nearest to a pixel:
`numpy.average(numpy.abs(mosaic_palette[1] - pixel_values[x, y]), axis=1).argmin()`. -/
def nearestIdx (cols : List Color) (px : Color) : Nat :=
  argminIdx (cols.map fun col => meanAbsDist col px)

/-- `get_image_mask`: each cell gets the fingerprint of the first palette
entry at minimal mean absolute per-channel distance. -/
def get_image_mask (pixel_values : List (List Color))
    (mosaic_palette : List String × List Color) : List (List String) :=
  pixel_values.map fun row =>
    row.map fun px => mosaic_palette.1.getD (nearestIdx mosaic_palette.2 px) ""

/-- Python dict assignment `images_data[image_hash] = ...`: update in place
when the key exists, else append. -/
def dictInsert (d : List (String × String)) (k v : String) : List (String × String) :=
  if k ∈ d.map Prod.fst then d.map fun p => if p.1 = k then (p.1, v) else p
  else d ++ [(k, v)]

/-- The `load_used_images` loop with its accumulated dict.  A hashing
failure (unreadable file) or an `Image.open` failure on a mask-referenced
file returns the `None` sentinel; other files are skipped or stored. -/
def load_used_images_go (c : Codec) (image_mask : List (List String)) :
    List DirEntry → List (String × String) → Option (List (String × String))
  | [], d => some d
  | e :: rest, d =>
    if e.isFile = false then load_used_images_go c image_mask rest d
    else
      match e.contents with
      | none => none
      | some b =>
        if c.hash b ∈ image_mask.flatten then
          match c.openImage b with
          | none => none
          | some img =>
            load_used_images_go c image_mask rest (dictInsert d (c.hash b) img)
        else load_used_images_go c image_mask rest d

/-- `load_used_images`: scan the tile directory, keep the files whose hash
occurs in the mask. -/
def load_used_images (c : Codec) (entries : List DirEntry)
    (image_mask : List (List String)) : Option (List (String × String)) :=
  load_used_images_go c image_mask entries []

/-- `generate_image`: paste `loaded_data.get(image_mask[x, y])` per cell
(`none` models a `dict.get` miss). -/
def generate_image (image_mask : List (List String)) (loaded : List (String × String)) :
    List (List (Option String)) :=
  image_mask.map fun row =>
    row.map fun h => (loaded.find? fun p => p.1 == h).map Prod.snd

/-- Exit classification of the `__main__` driver. -/
inductive ExitKind where
  | invalidSource
  | emptyPalette
  | loadFailure
  | success
deriving DecidableEq

/-- Observable outcome of the `__main__` driver. -/
structure MainResult where
  exitCode : Nat
  kind : ExitKind
  maskComputed : Bool
  output : Option (List (List (Option String)))
deriving DecidableEq

/-- The `__main__` driver: source decode, palette reconciliation, the
empty-palette `quit(1)` before any mask computation, mask, selective load
(`quit(1)` on the `None` sentinel), assembly. -/
def mosaicMain (c : Codec) (sourcePixels : Option (List (List Color)))
    (deleteFlag : Bool) (cacheFile : Option (List String)) (entries : List DirEntry) :
    MainResult :=
  match sourcePixels with
  | none => ⟨1, .invalidSource, false, none⟩
  | some px =>
    let pal := get_mosaic_palette c deleteFlag (cacheFile.getD []) entries
    if pal.1.length = 0 then ⟨1, .emptyPalette, false, none⟩
    else
      let mask := get_image_mask px pal
      match load_used_images c entries mask with
      | none => ⟨1, .loadFailure, true, none⟩
      | some loaded => ⟨0, .success, true, some (generate_image mask loaded)⟩

/-! ### Structural lemmas about the palette parser -/

theorem parse_len1 (c : Codec) :
    ∀ l : List String, (parse_mosaic_palette c l).1.length = l.length / 2
  | [] => by simp [parse_mosaic_palette]
  | [a] => by simp [parse_mosaic_palette]
  | a :: b :: rest => by
    have ih := parse_len1 c rest
    simp only [parse_mosaic_palette, List.length_cons, ih]
    omega

theorem parse_len2 (c : Codec) :
    ∀ l : List String, (parse_mosaic_palette c l).2.length = l.length / 2
  | [] => by simp [parse_mosaic_palette]
  | [a] => by simp [parse_mosaic_palette]
  | a :: b :: rest => by
    have ih := parse_len2 c rest
    simp only [parse_mosaic_palette, List.length_cons, ih]
    omega

theorem parse_get1 (c : Codec) :
    ∀ (l : List String) (i : Nat), i < l.length / 2 →
      (parse_mosaic_palette c l).1.get? i = l.get? (2 * i)
  | [], i, h => by simp at h
  | [a], i, h => by simp only [List.length_singleton] at h; omega
  | a :: b :: rest, 0, _ => by simp [parse_mosaic_palette]
  | a :: b :: rest, i + 1, h => by
    have ih := parse_get1 c rest i (by simp only [List.length_cons] at h; omega)
    have harith : 2 * (i + 1) = 2 * i + 1 + 1 := by ring
    simp only [parse_mosaic_palette, harith, List.get?_cons_succ]
    exact ih

theorem parse_get2 (c : Codec) :
    ∀ (l : List String) (i : Nat), i < l.length / 2 →
      (parse_mosaic_palette c l).2.get? i =
        (l.get? (2 * i + 1)).map fun s => truncColor (c.parseColor s)
  | [], i, h => by simp at h
  | [a], i, h => by simp only [List.length_singleton] at h; omega
  | a :: b :: rest, 0, _ => by simp [parse_mosaic_palette]
  | a :: b :: rest, i + 1, h => by
    have ih := parse_get2 c rest i (by simp only [List.length_cons] at h; omega)
    have harith : 2 * (i + 1) + 1 = 2 * i + 1 + 1 + 1 := by ring
    simp only [parse_mosaic_palette, harith, List.get?_cons_succ]
    exact ih

theorem parse_append (c : Codec) :
    ∀ l₁ l₂ : List String, l₁.length % 2 = 0 →
      parse_mosaic_palette c (l₁ ++ l₂) =
        ((parse_mosaic_palette c l₁).1 ++ (parse_mosaic_palette c l₂).1,
         (parse_mosaic_palette c l₁).2 ++ (parse_mosaic_palette c l₂).2)
  | [], l₂, _ => by simp [parse_mosaic_palette]
  | [a], l₂, h => by simp only [List.length_singleton] at h; omega
  | a :: b :: rest, l₂, h => by
    have ih := parse_append c rest l₂ (by simp only [List.length_cons] at h; omega)
    simp only [List.cons_append, parse_mosaic_palette]
    rw [List.append_eq, ih]

/-! ### Decomposition of the reconciliation run into per-entry effects -/

theorem run_cache (c : Codec) (flag : Bool) (saved : List String) :
    ∀ entries : List DirEntry,
      (get_mosaic_palette_run c flag saved entries).cache =
        entries.flatMap (entryLines c saved)
  | [] => rfl
  | e :: rest => by
    simp [get_mosaic_palette_run, run_cache c flag saved rest]

theorem run_decodes (c : Codec) (flag : Bool) (saved : List String) :
    ∀ entries : List DirEntry,
      (get_mosaic_palette_run c flag saved entries).decodes =
        (entries.map (entryDecodes c saved)).sum
  | [] => rfl
  | e :: rest => by
    simp [get_mosaic_palette_run, run_decodes c flag saved rest]

theorem run_deleted (c : Codec) (flag : Bool) (saved : List String) :
    ∀ entries : List DirEntry,
      (get_mosaic_palette_run c flag saved entries).deleted =
        entries.flatMap (entryDeleted c flag saved)
  | [] => rfl
  | e :: rest => by
    simp [get_mosaic_palette_run, run_deleted c flag saved rest]

/-! ### Test fixtures: concrete codecs and directory entries -/

/-- Identity hashing, constant decode, constant serialization. -/
def cdup : Codec :=
  ⟨id, fun _ => some [(0, 0, 0)], fun _ => "c", fun _ => (0, 0, 0), some⟩

/-- Codec whose decoded tile has per-channel mean 1/2 and whose color
serialization round-trips through `"0.5 0.5 0.5"`. -/
def cC4 : Codec :=
  ⟨id, fun _ => some [(0, 0, 0), (1, 1, 1)], fun _ => "0.5 0.5 0.5",
   fun _ => (1/2, 1/2, 1/2), some⟩

/-- Codec for loader scenarios: identity hashing, every open succeeds. -/
def cld : Codec :=
  ⟨id, fun _ => none, fun _ => "c", fun _ => (0, 0, 0), some⟩

/-- Codec whose tile of bytes `"B"` fails to decode while all others
decode. -/
def cC9 : Codec :=
  ⟨id, fun b => if b = "B" then none else some [(0, 0, 0)], fun _ => "c",
   fun _ => (0, 0, 0), some⟩

/-- C1: after reconciliation of a tile directory holding two
duplicate-content files under different names and starting from an empty
loaded record, the returned palette carries the shared fingerprint twice:
the already-known check is made against the loaded record only, so the
claimed uniqueness invariant fails. -/
theorem C1_counterexample :
    (get_mosaic_palette cdup false []
        [⟨"f1", some "A", true⟩, ⟨"f2", some "A", true⟩]).1 = ["A", "A"] ∧
    ¬ (get_mosaic_palette cdup false []
        [⟨"f1", some "A", true⟩, ⟨"f2", some "A", true⟩]).1.Nodup := by
  decide

/-- C2: with a tile directory whose single file hashes to `"a"` and a mask
also referencing the unresolvable fingerprint `"zz"`, `load_used_images`
does not fail: it returns a silently smaller result instead of the `None`
sentinel the claim requires. -/
theorem C2_counterexample :
    "zz" ∈ ([["a", "zz"]] : List (List String)).flatten ∧
    load_used_images cld [⟨"t", some "a", true⟩] [["a", "zz"]] =
      some [("a", "a")] := by
  decide

/-- C4: the per-channel mean of a two-pixel tile with pixels (0,0,0) and
(1,1,1) is (1/2,1/2,1/2), yet the palette returned by
`get_mosaic_palette` carries (0,0,0) for it: `parse_mosaic_palette`
parses the color line as floats but stores them into a `dtype=int` numpy
array, truncating the fractional part. -/
theorem C4_truncation :
    averageColor [((0 : ℚ), 0, 0), (1, 1, 1)] = (1/2, 1/2, 1/2) ∧
    (get_mosaic_palette cC4 false [] [⟨"tile", some "A", true⟩]).2 =
      [((0 : ℚ), 0, 0)] ∧
    ((1 : ℚ)/2, (1 : ℚ)/2, (1 : ℚ)/2) ≠ ((0 : ℚ), (0 : ℚ), (0 : ℚ)) := by
  refine ⟨by simp [averageColor], ?_, by norm_num⟩
  have hc : (get_mosaic_palette_run cC4 false [] [⟨"tile", some "A", true⟩]).cache
      = ["A", "0.5 0.5 0.5"] := by
    simp [get_mosaic_palette_run, entryLines, cC4]
  rw [get_mosaic_palette, hc]
  simp only [parse_mosaic_palette, truncColor, truncQ, cC4]
  norm_num

/-- C8: with two resolvable tiles `"p"`, `"q"` and a mask referencing
`"p"` and the unresolvable fingerprint `"Y"`, the loaded key set is
`{"p"}`: it is not equal to the set of distinct mask fingerprints, which
the claim asserts for every mask. -/
theorem C8_counterexample :
    load_used_images cld [⟨"p", some "p", true⟩, ⟨"q", some "q", true⟩]
        [["p", "Y"]] = some [("p", "p")] ∧
    "Y" ∉ [("p", "p")].map Prod.fst ∧
    "Y" ∈ ([["p", "Y"]] : List (List String)).flatten := by
  decide

/-- C6: the cache file is overwritten iff the reconciled flat line
sequence differs from the loaded one; on a write the file holds exactly
the new sequence, and without a write its bytes are untouched. -/
theorem C6_write_iff (c : Codec) (deleteFlag : Bool)
    (cacheFile : Option (List String)) (entries : List DirEntry) :
    (cacheWritten c deleteFlag (cacheFile.getD []) entries = true ↔
      cacheFile.getD [] ≠
        (get_mosaic_palette_run c deleteFlag (cacheFile.getD []) entries).cache) ∧
    (cacheWritten c deleteFlag (cacheFile.getD []) entries = true →
      cacheFileAfter c deleteFlag cacheFile entries =
        some (get_mosaic_palette_run c deleteFlag (cacheFile.getD []) entries).cache) ∧
    (cacheWritten c deleteFlag (cacheFile.getD []) entries = false →
      cacheFileAfter c deleteFlag cacheFile entries = cacheFile) := by
  refine ⟨by simp [cacheWritten], ?_, ?_⟩
  · intro hw
    rw [cacheWritten, decide_eq_true_eq] at hw
    simp [cacheFileAfter, hw]
  · intro hw
    rw [cacheWritten, decide_eq_false_iff_not, not_ne_iff] at hw
    simp only [cacheFileAfter]
    rw [if_neg (not_ne_iff.mpr hw)]

/-- C6 witness: a fresh directory with one valid tile and no cache file
triggers a write, after which the file holds the new pair of lines. -/
theorem C6_write_iff_witness :
    cacheWritten cdup false ((none : Option (List String)).getD [])
        [⟨"f1", some "A", true⟩] = true ∧
    cacheFileAfter cdup false none [⟨"f1", some "A", true⟩] = some ["A", "c"] := by
  refine ⟨by decide, ?_⟩
  have h := (C6_write_iff cdup false none [⟨"f1", some "A", true⟩]).2.1 (by decide)
  rw [h]
  decide

/-- C7: when reconciliation leaves an empty palette and the source image
was readable, the driver exits with code 1 on the empty-palette branch
before any mask computation, producing no output image. -/
theorem C7_empty_palette (c : Codec) (px : List (List Color)) (deleteFlag : Bool)
    (cacheFile : Option (List String)) (entries : List DirEntry)
    (hempty : (get_mosaic_palette c deleteFlag (cacheFile.getD []) entries).1.length = 0) :
    mosaicMain c (some px) deleteFlag cacheFile entries =
      ⟨1, ExitKind.emptyPalette, false, none⟩ := by
  simp only [mosaicMain]
  rw [if_pos hempty]

/-- C7 witness: an empty tile directory yields the empty palette, and the
driver stops on the empty-palette branch with exit code 1 and no mask. -/
theorem C7_empty_palette_witness :
    (get_mosaic_palette cdup false ((none : Option (List String)).getD []) []).1.length = 0 ∧
    mosaicMain cdup (some [[((0 : ℚ), 0, 0)]]) false none [] =
      ⟨1, ExitKind.emptyPalette, false, none⟩ :=
  ⟨by decide, C7_empty_palette cdup [[((0 : ℚ), 0, 0)]] false none [] (by decide)⟩

/-- C10: `parse_mosaic_palette` yields exactly `n / 2` entries from the
first `2 * (n / 2)` lines, pairing line `2*i` as fingerprint with line
`2*i+1` parsed as three numbers (then truncated into the int array); a
trailing unpaired line of an odd-length record is silently dropped. -/
theorem C10_parse_pairs (c : Codec) (lines : List String) :
    (parse_mosaic_palette c lines).1.length = lines.length / 2 ∧
    (parse_mosaic_palette c lines).2.length = lines.length / 2 ∧
    ∀ i, i < lines.length / 2 →
      (parse_mosaic_palette c lines).1.get? i = lines.get? (2 * i) ∧
      (parse_mosaic_palette c lines).2.get? i =
        (lines.get? (2 * i + 1)).map fun s => truncColor (c.parseColor s) :=
  ⟨parse_len1 c lines, parse_len2 c lines, fun i h =>
    ⟨parse_get1 c lines i h, parse_get2 c lines i h⟩⟩

/-- C10 witness: a three-line record parses to a single entry built from
its first two lines, the third line being ignored. -/
theorem C10_parse_pairs_witness :
    (parse_mosaic_palette cld ["h1", "1 2 3", "h2"]).1.length = 1 ∧
    (parse_mosaic_palette cld ["h1", "1 2 3", "h2"]).1.get? 0 = some "h1" := by
  have h := C10_parse_pairs cld ["h1", "1 2 3", "h2"]
  refine ⟨h.1, ?_⟩
  have h0 := (h.2.2 0 (by norm_num)).1
  simpa using h0

/-! ### The argmin of numpy: first index achieving the minimum -/

theorem argminIdx_lt : ∀ l : List ℚ, l ≠ [] → argminIdx l < l.length
  | [x], _ => by simp [argminIdx]
  | x :: y :: rest, _ => by
    have ih := argminIdx_lt (y :: rest) (by simp)
    simp only [argminIdx, List.length_cons]
    split
    · omega
    · simp only [List.length_cons] at ih
      omega

theorem argminIdx_min : ∀ (l : List ℚ) (k : Nat), k < l.length →
    l.getD (argminIdx l) 0 ≤ l.getD k 0
  | [], k, h => by simp at h
  | [x], k, h => by
    have hk : k = 0 := by simpa [Nat.lt_one_iff] using h
    simp [argminIdx, hk]
  | x :: y :: rest, k, h => by
    simp only [argminIdx]
    split
    · rename_i hle
      cases k with
      | zero => simp
      | succ j =>
        have hj : j < (y :: rest).length := by
          simpa [Nat.succ_lt_succ_iff] using h
        simp only [List.getD_cons_zero, List.getD_cons_succ]
        exact le_trans hle (argminIdx_min (y :: rest) j hj)
    · rename_i hlt
      push_neg at hlt
      cases k with
      | zero =>
        simp only [List.getD_cons_zero, List.getD_cons_succ]
        exact le_of_lt hlt
      | succ j =>
        have hj : j < (y :: rest).length := by
          simpa [Nat.succ_lt_succ_iff] using h
        simp only [List.getD_cons_succ]
        exact argminIdx_min (y :: rest) j hj

theorem argminIdx_first : ∀ (l : List ℚ) (k : Nat), k < argminIdx l →
    l.getD (argminIdx l) 0 < l.getD k 0
  | [], k, h => by simp [argminIdx] at h
  | [x], k, h => by simp [argminIdx] at h
  | x :: y :: rest, k, h => by
    by_cases hc : x ≤ (y :: rest).getD (argminIdx (y :: rest)) 0
    · rw [argminIdx, if_pos hc] at h
      omega
    · rw [argminIdx, if_neg hc] at h ⊢
      push_neg at hc
      cases k with
      | zero =>
        simp only [List.getD_cons_zero, List.getD_cons_succ]
        exact hc
      | succ j =>
        simp only [List.getD_cons_succ]
        exact argminIdx_first (y :: rest) j (by omega)

/-- Reading a mapped list at an in-range index. -/
theorem map_getD_of_lt {α β : Type} (f : α → β) (l : List α) (k : Nat)
    (d : α) (d' : β) (hk : k < l.length) :
    (l.map f).getD k d' = f (l.getD k d) := by
  have h1 : l[k]? = some l[k] := List.getElem?_eq_getElem hk
  rw [List.getD_eq_getElem?_getD, List.getElem?_map, h1,
    List.getD_eq_getElem?_getD, h1]
  rfl

/-- Extracting one cell of the mask produced by `get_image_mask`. -/
theorem mask_cell (grid : List (List Color)) (pal : List String × List Color)
    (x y : Nat) (hx : x < grid.length) (hy : y < (grid.getD x []).length) :
    ((get_image_mask grid pal).getD x []).getD y "" =
      pal.1.getD (nearestIdx pal.2 ((grid.getD x []).getD y (0, 0, 0))) "" := by
  unfold get_image_mask
  simp only [map_getD_of_lt _ grid x ([] : List Color) ([] : List String) hx]
  simp only [map_getD_of_lt _ (grid.getD x []) y ((0, 0, 0) : Color) "" hy]

/-- C3: each mask cell holds the fingerprint of the palette entry at the
first index minimizing the mean absolute per-channel distance to the
pixel: that index is in range, its distance is a lower bound of all
palette distances, and every strictly earlier entry is strictly farther. -/
theorem C3_nearest (grid : List (List Color)) (fps : List String) (cols : List Color)
    (x y : Nat) (px : Color) (hne : cols ≠ []) (hlen : fps.length = cols.length)
    (hx : x < grid.length) (hy : y < (grid.getD x []).length)
    (hpx : px = (grid.getD x []).getD y (0, 0, 0)) :
    nearestIdx cols px < fps.length ∧
    ((get_image_mask grid (fps, cols)).getD x []).getD y "" =
      fps.getD (nearestIdx cols px) "" ∧
    (∀ k, k < cols.length →
      meanAbsDist (cols.getD (nearestIdx cols px) (0, 0, 0)) px ≤
        meanAbsDist (cols.getD k (0, 0, 0)) px) ∧
    (∀ k, k < nearestIdx cols px →
      meanAbsDist (cols.getD (nearestIdx cols px) (0, 0, 0)) px <
        meanAbsDist (cols.getD k (0, 0, 0)) px) := by
  have hdists : (cols.map fun col => meanAbsDist col px) ≠ [] := by
    simpa using hne
  have hlt : nearestIdx cols px < cols.length := by
    have := argminIdx_lt _ hdists
    simpa [nearestIdx] using this
  have hlt' : argminIdx (cols.map fun col => meanAbsDist col px) < cols.length := by
    simpa [nearestIdx] using hlt
  refine ⟨by omega, ?_, ?_, ?_⟩
  · rw [mask_cell grid (fps, cols) x y hx hy, hpx]
  · intro k hk
    have h := argminIdx_min (cols.map fun col => meanAbsDist col px) k
      (by simpa using hk)
    rw [map_getD_of_lt _ _ _ ((0, 0, 0) : Color) 0 hlt',
      map_getD_of_lt _ _ _ ((0, 0, 0) : Color) 0 hk] at h
    exact h
  · intro k hk
    have hk' : k < cols.length := by
      have : k < nearestIdx cols px := hk
      omega
    have h := argminIdx_first (cols.map fun col => meanAbsDist col px) k hk
    rw [map_getD_of_lt _ _ _ ((0, 0, 0) : Color) 0 hlt',
      map_getD_of_lt _ _ _ ((0, 0, 0) : Color) 0 hk'] at h
    exact h

/-- C3 witness: with palette colors (0,0,0) and (255,255,255), the pixel
(10,10,10) is assigned the fingerprint of the (0,0,0) entry. -/
theorem C3_nearest_witness :
    ([((0 : ℚ), 0, 0), (255, 255, 255)] : List Color) ≠ [] ∧
    ((get_image_mask [[((10 : ℚ), 10, 10)]]
        (["black", "white"], [(0, 0, 0), (255, 255, 255)])).getD 0 []).getD 0 "" =
      "black" := by
  refine ⟨by simp, ?_⟩
  have h := (C3_nearest [[((10 : ℚ), 10, 10)]] ["black", "white"]
    [(0, 0, 0), (255, 255, 255)] 0 0 ((10 : ℚ), 10, 10)
    (by simp) rfl (by simp) (by simp) rfl).2.1
  rw [h]
  norm_num [nearestIdx, argminIdx, meanAbsDist]

/-! ### The selective loader: failure condition and loaded key set -/

/-- The condition under which one directory entry makes `load_used_images`
return the failure sentinel: it is a regular file and either its bytes
cannot be read (hashing raises) or it is referenced by the mask and
opening it raises. -/
def entryLoadFails (c : Codec) (image_mask : List (List String)) (e : DirEntry) : Prop :=
  e.isFile = true ∧ (e.contents = none ∨
    ∃ b, e.contents = some b ∧ c.hash b ∈ image_mask.flatten ∧ c.openImage b = none)

theorem load_go_none_iff (c : Codec) (mask : List (List String)) :
    ∀ (entries : List DirEntry) (d : List (String × String)),
      load_used_images_go c mask entries d = none ↔
        ∃ e ∈ entries, entryLoadFails c mask e
  | [], d => by simp [load_used_images_go]
  | e :: rest, d => by
    simp only [load_used_images_go]
    by_cases hf : e.isFile = false
    · rw [if_pos hf, load_go_none_iff c mask rest d]
      constructor
      · rintro ⟨e', he', hfail⟩
        exact ⟨e', List.mem_cons_of_mem _ he', hfail⟩
      · rintro ⟨e', he', hfail⟩
        rcases List.mem_cons.mp he' with rfl | he'
        · exact absurd hfail.1 (by rw [hf]; simp)
        · exact ⟨e', he', hfail⟩
    · have hf' : e.isFile = true := by
        cases hb : e.isFile
        · exact absurd hb hf
        · rfl
      rw [if_neg hf]
      cases hc : e.contents with
      | none =>
        constructor
        · intro _
          exact ⟨e, List.mem_cons_self _ _, hf', Or.inl hc⟩
        · intro _
          rfl
      | some b =>
        dsimp only
        by_cases hm : c.hash b ∈ mask.flatten
        · rw [if_pos hm]
          cases ho : c.openImage b with
          | none =>
            constructor
            · intro _
              exact ⟨e, List.mem_cons_self _ _, hf', Or.inr ⟨b, hc, hm, ho⟩⟩
            · intro _
              rfl
          | some img =>
            rw [load_go_none_iff c mask rest (dictInsert d (c.hash b) img)]
            constructor
            · rintro ⟨e', he', hfail⟩
              exact ⟨e', List.mem_cons_of_mem _ he', hfail⟩
            · rintro ⟨e', he', hfail⟩
              rcases List.mem_cons.mp he' with rfl | he'
              · rcases hfail.2 with hnone | ⟨b', hb', _, ho'⟩
                · rw [hc] at hnone
                  exact absurd hnone (by simp)
                · rw [hc] at hb'
                  cases hb'
                  rw [ho] at ho'
                  exact absurd ho' (by simp)
              · exact ⟨e', he', hfail⟩
        · rw [if_neg hm, load_go_none_iff c mask rest d]
          constructor
          · rintro ⟨e', he', hfail⟩
            exact ⟨e', List.mem_cons_of_mem _ he', hfail⟩
          · rintro ⟨e', he', hfail⟩
            rcases List.mem_cons.mp he' with rfl | he'
            · rcases hfail.2 with hnone | ⟨b', hb', hm', _⟩
              · rw [hc] at hnone
                exact absurd hnone (by simp)
              · rw [hc] at hb'
                cases hb'
                exact absurd hm' hm
            · exact ⟨e', he', hfail⟩

/-- C2 (amended): `load_used_images` returns the `None` sentinel iff some
regular file in the directory is unreadable, or some mask-referenced file
fails to open.  A mask fingerprint to which no directory file hashes does
not cause failure; it is silently absent from the result. -/
theorem C2_amended (c : Codec) (entries : List DirEntry)
    (image_mask : List (List String)) :
    load_used_images c entries image_mask = none ↔
      ∃ e ∈ entries, entryLoadFails c image_mask e :=
  load_go_none_iff c image_mask entries []

/-- The key list of a loader dictionary. -/
def dictKeys (d : List (String × String)) : List String :=
  d.map Prod.fst

theorem dictInsert_keys_mem (d : List (String × String)) (k v h : String) :
    h ∈ dictKeys (dictInsert d k v) ↔ h ∈ dictKeys d ∨ h = k := by
  unfold dictInsert dictKeys
  split
  · rename_i hk
    have hkeys : (d.map fun p => if p.1 = k then (p.1, v) else p).map Prod.fst =
        d.map Prod.fst := by
      rw [List.map_map]
      refine List.map_congr_left fun p _ => ?_
      by_cases hp : p.1 = k
      · simp [hp]
      · simp [hp]
    rw [hkeys]
    constructor
    · exact Or.inl
    · rintro (hd | rfl)
      · exact hd
      · exact hk
  · simp [or_comm]

theorem dictInsert_keys_nodup (d : List (String × String)) (k v : String)
    (hnd : (dictKeys d).Nodup) : (dictKeys (dictInsert d k v)).Nodup := by
  unfold dictInsert dictKeys
  split
  · rename_i hk
    have hkeys : (d.map fun p => if p.1 = k then (p.1, v) else p).map Prod.fst =
        d.map Prod.fst := by
      rw [List.map_map]
      refine List.map_congr_left fun p _ => ?_
      by_cases hp : p.1 = k
      · simp [hp]
      · simp [hp]
    rw [hkeys]
    exact hnd
  · rename_i hk
    simp only [List.map_append, List.map_cons, List.map_nil]
    rw [List.nodup_append]
    refine ⟨hnd, List.nodup_singleton _, ?_⟩
    intro x hx hxk
    rw [List.mem_singleton] at hxk
    subst hxk
    exact hk hx

theorem load_go_keys (c : Codec) (mask : List (List String)) :
    ∀ (entries : List DirEntry) (d₀ d : List (String × String)),
      load_used_images_go c mask entries d₀ = some d →
      ((dictKeys d₀).Nodup → (dictKeys d).Nodup) ∧
      ∀ h, h ∈ dictKeys d ↔ (h ∈ dictKeys d₀ ∨
        (h ∈ mask.flatten ∧
          ∃ e ∈ entries, e.isFile = true ∧ ∃ b, e.contents = some b ∧ c.hash b = h))
  | [], d₀, d => by
    intro hload
    simp only [load_used_images_go, Option.some_inj] at hload
    subst hload
    simp
  | e :: rest, d₀, d => by
    intro hload
    simp only [load_used_images_go] at hload
    by_cases hf : e.isFile = false
    · rw [if_pos hf] at hload
      have IH := load_go_keys c mask rest d₀ d hload
      refine ⟨IH.1, fun h => ?_⟩
      rw [IH.2 h]
      constructor
      · rintro (hd | ⟨hm, e', he', hrest⟩)
        · exact Or.inl hd
        · exact Or.inr ⟨hm, e', List.mem_cons_of_mem _ he', hrest⟩
      · rintro (hd | ⟨hm, e', he', hrest⟩)
        · exact Or.inl hd
        · rcases List.mem_cons.mp he' with rfl | he'
          · exact absurd hrest.1 (by rw [hf]; simp)
          · exact Or.inr ⟨hm, e', he', hrest⟩
    · have hf' : e.isFile = true := by
        cases hb : e.isFile
        · exact absurd hb hf
        · rfl
      rw [if_neg hf] at hload
      cases hc : e.contents with
      | none =>
        rw [hc] at hload
        exact absurd hload (by simp)
      | some b =>
        rw [hc] at hload
        dsimp only at hload
        by_cases hm : c.hash b ∈ mask.flatten
        · rw [if_pos hm] at hload
          cases ho : c.openImage b with
          | none =>
            rw [ho] at hload
            exact absurd hload (by simp)
          | some img =>
            rw [ho] at hload
            have IH := load_go_keys c mask rest (dictInsert d₀ (c.hash b) img) d hload
            constructor
            · intro hnd
              exact IH.1 (dictInsert_keys_nodup d₀ (c.hash b) img hnd)
            · intro h
              rw [IH.2 h, dictInsert_keys_mem]
              constructor
              · rintro ((hd | rfl) | ⟨hmm, e', he', hrest⟩)
                · exact Or.inl hd
                · exact Or.inr ⟨hm, e, List.mem_cons_self _ _, hf', b, hc, rfl⟩
                · exact Or.inr ⟨hmm, e', List.mem_cons_of_mem _ he', hrest⟩
              · rintro (hd | ⟨hmm, e', he', hisf, b', hb', hh⟩)
                · exact Or.inl (Or.inl hd)
                · rcases List.mem_cons.mp he' with rfl | he'
                  · rw [hc] at hb'
                    cases hb'
                    exact Or.inl (Or.inr hh.symm)
                  · exact Or.inr ⟨hmm, e', he', hisf, b', hb', hh⟩
        · rw [if_neg hm] at hload
          have IH := load_go_keys c mask rest d₀ d hload
          refine ⟨IH.1, fun h => ?_⟩
          rw [IH.2 h]
          constructor
          · rintro (hd | ⟨hmm, e', he', hrest⟩)
            · exact Or.inl hd
            · exact Or.inr ⟨hmm, e', List.mem_cons_of_mem _ he', hrest⟩
          · rintro (hd | ⟨hmm, e', he', hisf, b', hb', hh⟩)
            · exact Or.inl hd
            · rcases List.mem_cons.mp he' with rfl | he'
              · rw [hc] at hb'
                cases hb'
                rw [hh] at hm
                exact absurd hmm hm
              · exact Or.inr ⟨hmm, e', he', hisf, b', hb', hh⟩

/-- C8 (amended): when `load_used_images` succeeds, its key set is
duplicate-free and holds exactly the mask fingerprints to which some
regular directory file hashes; a mask fingerprint with no matching file
is simply absent, and no unreferenced tile is loaded. -/
theorem C8_amended (c : Codec) (entries : List DirEntry)
    (image_mask : List (List String)) (d : List (String × String))
    (hload : load_used_images c entries image_mask = some d) :
    (d.map Prod.fst).Nodup ∧
    ∀ h, h ∈ d.map Prod.fst ↔
      (h ∈ image_mask.flatten ∧
        ∃ e ∈ entries, e.isFile = true ∧ ∃ b, e.contents = some b ∧ c.hash b = h) := by
  have h := load_go_keys c image_mask entries [] d hload
  refine ⟨h.1 (by simp [dictKeys]), fun h' => ?_⟩
  have hm := h.2 h'
  simpa [dictKeys] using hm

/-- C8 witness: one referenced tile out of two available is loaded, with a
duplicate-free key list. -/
theorem C8_amended_witness :
    load_used_images cld [⟨"p", some "p", true⟩, ⟨"q", some "q", true⟩] [["p"]] =
      some [("p", "p")] ∧
    ([("p", "p")].map Prod.fst).Nodup :=
  ⟨by decide,
    (C8_amended cld [⟨"p", some "p", true⟩, ⟨"q", some "q", true⟩] [["p"]]
      [("p", "p")] (by decide)).1⟩

/-! ### Local recovery of per-tile failures, and deletion gating -/

theorem entryDeleted_false (c : Codec) (saved : List String) (e : DirEntry) :
    entryDeleted c false saved e = [] := by
  unfold entryDeleted
  split
  · rfl
  · cases hc : e.contents with
    | none => rfl
    | some b =>
      dsimp only
      split
      · cases hd : c.decode b with
        | none => rfl
        | some g => rfl
      · rfl

theorem run_append (c : Codec) (flag : Bool) (saved : List String) :
    ∀ l₁ l₂ : List DirEntry,
      get_mosaic_palette_run c flag saved (l₁ ++ l₂) =
        ⟨(get_mosaic_palette_run c flag saved l₁).cache ++
           (get_mosaic_palette_run c flag saved l₂).cache,
         (get_mosaic_palette_run c flag saved l₁).decodes +
           (get_mosaic_palette_run c flag saved l₂).decodes,
         (get_mosaic_palette_run c flag saved l₁).deleted ++
           (get_mosaic_palette_run c flag saved l₂).deleted⟩
  | [], l₂ => by simp [get_mosaic_palette_run]
  | e :: rest, l₂ => by
    simp [get_mosaic_palette_run, run_append c flag saved rest l₂]
    omega

/-- The cache lines of a tile whose decode fails are empty. -/
theorem entryLines_bad (c : Codec) (saved : List String) (bad : DirEntry) (b : String)
    (hfile : bad.isFile = true) (hname : bad.name ≠ ".gitkeep")
    (hbytes : bad.contents = some b) (hnew : c.hash b ∉ saved)
    (hdec : c.decode b = none) : entryLines c saved bad = [] := by
  unfold entryLines
  rw [if_neg (by simp [hfile, hname]), hbytes]
  dsimp only
  rw [if_pos hnew, hdec]

/-- The deletions of a tile whose decode fails: gated by the flag. -/
theorem entryDeleted_bad (c : Codec) (flag : Bool) (saved : List String)
    (bad : DirEntry) (b : String)
    (hfile : bad.isFile = true) (hname : bad.name ≠ ".gitkeep")
    (hbytes : bad.contents = some b) (hnew : c.hash b ∉ saved)
    (hdec : c.decode b = none) :
    entryDeleted c flag saved bad = if flag then [bad.name] else [] := by
  unfold entryDeleted
  rw [if_neg (by simp [hfile, hname]), hbytes]
  dsimp only
  rw [if_pos hnew, hdec]

/-- C9: a tile whose decode or validation fails never aborts the
reconciliation — the produced cache is the one of the run without that
tile, and the other entries are processed as before; its file is removed
exactly when the delete flag is set, and with the flag unset no run
deletes any file at all. -/
theorem C9_local_recovery (c : Codec) (flag : Bool) (saved : List String)
    (pre post : List DirEntry) (bad : DirEntry) (b : String)
    (hfile : bad.isFile = true) (hname : bad.name ≠ ".gitkeep")
    (hbytes : bad.contents = some b) (hnew : c.hash b ∉ saved)
    (hdec : c.decode b = none) :
    (get_mosaic_palette_run c flag saved (pre ++ bad :: post)).cache =
      (get_mosaic_palette_run c flag saved (pre ++ post)).cache ∧
    (get_mosaic_palette_run c flag saved (pre ++ bad :: post)).deleted =
      (get_mosaic_palette_run c flag saved pre).deleted ++
        (if flag then [bad.name] else []) ++
        (get_mosaic_palette_run c flag saved post).deleted ∧
    (∀ es : List DirEntry, (get_mosaic_palette_run c false saved es).deleted = []) := by
  have hlines := entryLines_bad c saved bad b hfile hname hbytes hnew hdec
  have hdel := entryDeleted_bad c flag saved bad b hfile hname hbytes hnew hdec
  refine ⟨?_, ?_, ?_⟩
  · rw [run_append c flag saved pre (bad :: post), run_append c flag saved pre post]
    show (get_mosaic_palette_run c flag saved pre).cache ++ _ = _
    rw [run_cache c flag saved (bad :: post), List.flatMap_cons, hlines,
      run_cache c flag saved post]
    simp
  · rw [run_append c flag saved pre (bad :: post)]
    show _ ++ (get_mosaic_palette_run c flag saved (bad :: post)).deleted = _
    rw [run_deleted c flag saved (bad :: post), List.flatMap_cons, hdel,
      run_deleted c flag saved post]
    simp [List.append_assoc]
  · intro es
    rw [run_deleted c false saved es]
    exact List.flatMap_eq_nil_iff.mpr fun e _ => entryDeleted_false c saved e

/-- C9 witness: with the delete flag unset, a tile of undecodable bytes
between two good tiles is skipped, the cache is as if it were absent, and
nothing is deleted. -/
theorem C9_local_recovery_witness :
    (⟨"bad", some "B", true⟩ : DirEntry).isFile = true ∧
    (get_mosaic_palette_run cC9 false []
        [⟨"g1", some "G", true⟩, ⟨"bad", some "B", true⟩, ⟨"g2", some "H", true⟩]).cache =
      (get_mosaic_palette_run cC9 false []
        [⟨"g1", some "G", true⟩, ⟨"g2", some "H", true⟩]).cache ∧
    (get_mosaic_palette_run cC9 false []
        [⟨"g1", some "G", true⟩, ⟨"bad", some "B", true⟩, ⟨"g2", some "H", true⟩]).deleted =
      [] := by
  have h := C9_local_recovery cC9 false [] [⟨"g1", some "G", true⟩]
    [⟨"g2", some "H", true⟩] ⟨"bad", some "B", true⟩ "B"
    rfl (by decide) rfl (by decide) (by decide)
  exact ⟨rfl, h.1, h.2.2 _⟩

/-! ### Uniqueness of palette fingerprints under distinct tile hashes -/

/-- The fingerprint a processed directory entry hashes to, when the entry
is a regular readable non-placeholder file. -/
def entryHash (c : Codec) (e : DirEntry) : Option String :=
  if e.isFile = false ∨ e.name = ".gitkeep" then none
  else e.contents.map c.hash

/-- Every entry contributes a complete fingerprint/color block (no
dangling fingerprint line from an `IndexError` in the reuse branch). -/
def blocksOk (c : Codec) (saved : List String) (entries : List DirEntry) : Bool :=
  entries.all fun e => decide ((entryLines c saved e).length ≠ 1)

/-- Shape of a per-entry cache contribution. -/
theorem entryLines_shape (c : Codec) (saved : List String) (e : DirEntry) :
    entryLines c saved e = [] ∨
    ∃ b, e.contents = some b ∧ entryHash c e = some (c.hash b) ∧
      (entryLines c saved e = [c.hash b] ∨
       ∃ col, entryLines c saved e = [c.hash b, col]) := by
  unfold entryLines entryHash
  split
  · exact Or.inl rfl
  · cases hc : e.contents with
    | none => exact Or.inl rfl
    | some b =>
      dsimp only
      split
      · cases hd : c.decode b with
        | none => exact Or.inl rfl
        | some g => exact Or.inr ⟨b, rfl, rfl, Or.inr ⟨_, rfl⟩⟩
      · cases hg : saved.get? (listIndex (c.hash b) saved + 1) with
        | some col => exact Or.inr ⟨b, rfl, rfl, Or.inr ⟨col, rfl⟩⟩
        | none => exact Or.inr ⟨b, rfl, rfl, Or.inl rfl⟩

theorem fingerprints_sublist (c : Codec) (saved : List String) :
    ∀ entries : List DirEntry, blocksOk c saved entries = true →
      (parse_mosaic_palette c (entries.flatMap (entryLines c saved))).1.Sublist
        (entries.filterMap (entryHash c))
  | [], _ => by simp [parse_mosaic_palette]
  | e :: rest, hok => by
    rw [blocksOk, List.all_cons, Bool.and_eq_true] at hok
    have hok' : blocksOk c saved rest = true := hok.2
    have hoke : (entryLines c saved e).length ≠ 1 := of_decide_eq_true hok.1
    have IH := fingerprints_sublist c saved rest hok'
    rw [List.flatMap_cons, List.filterMap_cons]
    rcases entryLines_shape c saved e with hnil | ⟨b, hb, hh, hone | ⟨col, htwo⟩⟩
    · rw [hnil, List.nil_append]
      cases hE : entryHash c e with
      | none => exact IH
      | some h => exact IH.cons h
    · rw [hone] at hoke
      simp at hoke
    · rw [htwo, hh]
      have : ([c.hash b, col] ++ rest.flatMap (entryLines c saved)) =
          c.hash b :: col :: rest.flatMap (entryLines c saved) := rfl
      rw [this, parse_mosaic_palette]
      exact IH.cons₂ (c.hash b)

/-- C1 (amended): the palette returned by reconciliation has
duplicate-free fingerprints provided the processed directory files hash
pairwise distinctly (and each contributes a complete block); with two
duplicate-content files the check against the loaded record does not
deduplicate them and the invariant fails, as the counterexample shows. -/
theorem C1_amended (c : Codec) (flag : Bool) (saved : List String)
    (entries : List DirEntry) (hok : blocksOk c saved entries = true)
    (hnodup : (entries.filterMap (entryHash c)).Nodup) :
    (get_mosaic_palette c flag saved entries).1.Nodup := by
  rw [get_mosaic_palette, run_cache]
  exact List.Nodup.sublist (fingerprints_sublist c saved entries hok) hnodup

/-- C1 witness: two distinct-content tiles yield a palette with
duplicate-free fingerprints. -/
theorem C1_amended_witness :
    blocksOk cdup [] [⟨"f1", some "A", true⟩, ⟨"f2", some "B", true⟩] = true ∧
    (get_mosaic_palette cdup false []
        [⟨"f1", some "A", true⟩, ⟨"f2", some "B", true⟩]).1.Nodup :=
  ⟨by decide,
    C1_amended cdup false [] [⟨"f1", some "A", true⟩, ⟨"f2", some "B", true⟩]
      (by decide) (by decide)⟩

/-! ### Idempotence of reconciliation: the warm second run -/

/-- The fingerprint/color pair an entry contributes, when complete. -/
def entryPairOf (c : Codec) (saved : List String) (e : DirEntry) :
    Option (String × String) :=
  match entryLines c saved e with
  | [h, col] => some (h, col)
  | _ => none

/-- The fingerprint/color pairs of a reconciliation run. -/
def runPairs (c : Codec) (saved : List String) (entries : List DirEntry) :
    List (String × String) :=
  entries.filterMap (entryPairOf c saved)

/-- The two cache lines of one pair. -/
def pairLines (p : String × String) : List String := [p.1, p.2]

/-- Every regular readable non-placeholder file contributes a complete
fingerprint/color block to the run. -/
def fullContrib (c : Codec) (saved : List String) (entries : List DirEntry) : Bool :=
  entries.all fun e =>
    if e.isFile = true ∧ e.name ≠ ".gitkeep" ∧ e.contents ≠ none then
      decide ((entryLines c saved e).length = 2)
    else true

/-- Hashing is injective on the directory contents (md5
collision-resistance, restricted to the files at hand). -/
def hashInjOn (c : Codec) (entries : List DirEntry) : Bool :=
  entries.all fun e₁ => entries.all fun e₂ =>
    decide (e₁.contents.map c.hash = e₂.contents.map c.hash →
      e₁.contents = e₂.contents)

/-- No file hash collides with a stored color line of the run (md5 hex
digests never look like a space-separated float triple). -/
def hashAvoidsColors (c : Codec) (saved : List String) (entries : List DirEntry) :
    Bool :=
  entries.all fun e =>
    match e.contents with
    | none => true
    | some b => (runPairs c saved entries).all fun p => decide (c.hash b ≠ p.2)

theorem entryPairOf_eq_lines (c : Codec) (saved : List String) (e : DirEntry)
    (p : String × String) (hp : entryPairOf c saved e = some p) :
    entryLines c saved e = [p.1, p.2] := by
  unfold entryPairOf at hp
  cases hE : entryLines c saved e with
  | nil => rw [hE] at hp; exact absurd hp (by simp)
  | cons a tail =>
    cases tail with
    | nil => rw [hE] at hp; exact absurd hp (by simp)
    | cons b' tail2 =>
      cases tail2 with
      | nil =>
        rw [hE] at hp
        simp only [Option.some_inj] at hp
        rw [← hp]
      | cons c' tail3 => rw [hE] at hp; exact absurd hp (by simp)

theorem entryPairOf_of_lines_two (c : Codec) (saved : List String) (e : DirEntry)
    (h col : String) (hE : entryLines c saved e = [h, col]) :
    entryPairOf c saved e = some (h, col) := by
  unfold entryPairOf
  rw [hE]

theorem entryHash_relevant (c : Codec) (e : DirEntry) (h : String)
    (hh : entryHash c e = some h) : e.isFile = true ∧ e.name ≠ ".gitkeep" := by
  unfold entryHash at hh
  by_cases hc : e.isFile = false ∨ e.name = ".gitkeep"
  · rw [if_pos hc] at hh
    exact absurd hh (by simp)
  · push_neg at hc
    refine ⟨?_, hc.2⟩
    cases hbb : e.isFile
    · exact absurd hbb hc.1
    · rfl

theorem fullContrib_spec (c : Codec) (saved : List String) (entries : List DirEntry)
    (h : fullContrib c saved entries = true) :
    ∀ e ∈ entries, e.isFile = true → e.name ≠ ".gitkeep" →
      ∀ b, e.contents = some b → (entryLines c saved e).length = 2 := by
  intro e he hf hn b hb
  rw [fullContrib, List.all_eq_true] at h
  have he' := h e he
  rw [if_pos ⟨hf, hn, by rw [hb]; simp⟩] at he'
  exact of_decide_eq_true he'

theorem hashInjOn_spec (c : Codec) (entries : List DirEntry)
    (h : hashInjOn c entries = true) :
    ∀ e₁ ∈ entries, ∀ e₂ ∈ entries,
      e₁.contents.map c.hash = e₂.contents.map c.hash →
        e₁.contents = e₂.contents := by
  intro e₁ h₁ e₂ h₂
  rw [hashInjOn, List.all_eq_true] at h
  have h' := h e₁ h₁
  rw [List.all_eq_true] at h'
  exact of_decide_eq_true (h' e₂ h₂)

theorem hashAvoidsColors_spec (c : Codec) (saved : List String)
    (entries : List DirEntry) (h : hashAvoidsColors c saved entries = true) :
    ∀ e ∈ entries, ∀ b, e.contents = some b →
      ∀ p ∈ runPairs c saved entries, c.hash b ≠ p.2 := by
  intro e he b hb p hp
  rw [hashAvoidsColors, List.all_eq_true] at h
  have h' := h e he
  rw [hb] at h'
  dsimp only at h'
  rw [List.all_eq_true] at h'
  exact of_decide_eq_true (h' p hp)

theorem entryLines_of_pairOf_none (c : Codec) (saved : List String)
    (entries : List DirEntry) (hfc : fullContrib c saved entries = true)
    (e : DirEntry) (he : e ∈ entries) (hp : entryPairOf c saved e = none) :
    entryLines c saved e = [] := by
  rcases entryLines_shape c saved e with hnil | ⟨b, hb, hh, hone | ⟨col, htwo⟩⟩
  · exact hnil
  · obtain ⟨hf, hn⟩ := entryHash_relevant c e _ hh
    have hlen := fullContrib_spec c saved entries hfc e he hf hn b hb
    rw [hone] at hlen
    simp at hlen
  · rw [entryPairOf_of_lines_two c saved e _ _ htwo] at hp
    exact absurd hp (by simp)

theorem flat_pairs (c : Codec) (saved : List String) :
    ∀ entries : List DirEntry, fullContrib c saved entries = true →
      entries.flatMap (entryLines c saved) =
        (runPairs c saved entries).flatMap pairLines
  | [], _ => rfl
  | e :: rest, hfc => by
    have hfc' : fullContrib c saved rest = true := by
      rw [fullContrib, List.all_cons, Bool.and_eq_true] at hfc
      exact hfc.2
    have IH := flat_pairs c saved rest hfc'
    rw [List.flatMap_cons, runPairs, List.filterMap_cons]
    cases hp : entryPairOf c saved e with
    | none =>
      have hnil := entryLines_of_pairOf_none c saved (e :: rest) hfc e
        (List.mem_cons_self _ _) hp
      rw [hnil, List.nil_append, IH, runPairs]
    | some p =>
      have hl := entryPairOf_eq_lines c saved e p hp
      rw [hl, IH, runPairs, List.flatMap_cons, pairLines]

theorem runPairs_functional (c : Codec) (saved : List String)
    (entries : List DirEntry) (hinj : hashInjOn c entries = true) :
    ∀ p ∈ runPairs c saved entries, ∀ q ∈ runPairs c saved entries,
      p.1 = q.1 → p.2 = q.2 := by
  intro p hp q hq hpq
  rw [runPairs, List.mem_filterMap] at hp hq
  obtain ⟨e₁, he₁, hpe₁⟩ := hp
  obtain ⟨e₂, he₂, hpe₂⟩ := hq
  have hl₁ := entryPairOf_eq_lines c saved e₁ p hpe₁
  have hl₂ := entryPairOf_eq_lines c saved e₂ q hpe₂
  rcases entryLines_shape c saved e₁ with hnil | ⟨b₁, hb₁, hh₁, hone | ⟨col₁, htwo₁⟩⟩
  · rw [hnil] at hl₁
    exact absurd hl₁ (by simp)
  · rw [hone] at hl₁
    exact absurd hl₁ (by simp)
  rcases entryLines_shape c saved e₂ with hnil | ⟨b₂, hb₂, hh₂, hone | ⟨col₂, htwo₂⟩⟩
  · rw [hnil] at hl₂
    exact absurd hl₂ (by simp)
  · rw [hone] at hl₂
    exact absurd hl₂ (by simp)
  rw [htwo₁] at hl₁
  rw [htwo₂] at hl₂
  simp only [List.cons.injEq, and_true] at hl₁ hl₂
  obtain ⟨hf₁, hn₁⟩ := entryHash_relevant c e₁ _ hh₁
  obtain ⟨hf₂, hn₂⟩ := entryHash_relevant c e₂ _ hh₂
  have hhash : c.hash b₁ = c.hash b₂ := by
    rw [← hl₁.1, ← hl₂.1] at hpq
    exact hpq
  have hcont : e₁.contents = e₂.contents := by
    refine hashInjOn_spec c entries hinj e₁ he₁ e₂ he₂ ?_
    rw [hb₁, hb₂]
    simp [hhash]
  have hbb : b₁ = b₂ := by
    rw [hb₁, hb₂] at hcont
    exact Option.some_inj.mp hcont
  subst hbb
  have hsame : entryLines c saved e₁ = entryLines c saved e₂ := by
    unfold entryLines
    rw [if_neg (by simp [hf₁, hn₁]), if_neg (by simp [hf₂, hn₂]), hb₁, hb₂]
  rw [htwo₁, htwo₂] at hsame
  simp only [List.cons.injEq, and_true] at hsame
  rw [← hl₁.2, ← hl₂.2]
  exact hsame.2

theorem pairs_lookup (h col : String) :
    ∀ P : List (String × String),
      (h, col) ∈ P →
      (∀ p ∈ P, p.1 = h → p.2 = col) →
      (∀ p ∈ P, h ≠ p.2) →
      (P.flatMap pairLines).get? (listIndex h (P.flatMap pairLines) + 1) = some col
  | [], hm, _, _ => absurd hm (List.not_mem_nil _)
  | q :: rest, hm, hfun, hdis => by
    rw [List.flatMap_cons, pairLines]
    by_cases h1 : q.1 = h
    · have hcol : q.2 = col := hfun q (List.mem_cons_self _ _) h1
      simp [listIndex, h1, hcol]
    · have h2 : ¬ q.2 = h := fun he => (hdis q (List.mem_cons_self _ _)) he.symm
      have hm' : (h, col) ∈ rest := by
        rcases List.mem_cons.mp hm with heq | h'
        · exact absurd (congrArg Prod.fst heq.symm) h1
        · exact h'
      have IH := pairs_lookup h col rest hm'
        (fun p hp => hfun p (List.mem_cons_of_mem _ hp))
        (fun p hp => hdis p (List.mem_cons_of_mem _ hp))
      show (q.1 :: q.2 :: rest.flatMap pairLines).get?
        (listIndex h (q.1 :: q.2 :: rest.flatMap pairLines) + 1) = some col
      rw [listIndex, if_neg h1, listIndex, if_neg h2]
      rw [List.get?_cons_succ, List.get?_cons_succ]
      exact IH

/-- Evaluation of `entryLines` at a relevant readable entry. -/
theorem entryLines_eval (c : Codec) (saved : List String) (e : DirEntry) (b : String)
    (hskip : ¬(e.isFile = false ∨ e.name = ".gitkeep")) (hc : e.contents = some b) :
    entryLines c saved e =
      if c.hash b ∉ saved then
        (match c.decode b with
         | none => []
         | some g => [c.hash b, c.serColor (averageColor g)])
      else
        (match saved.get? (listIndex (c.hash b) saved + 1) with
         | some col => [c.hash b, col]
         | none => [c.hash b]) := by
  unfold entryLines
  rw [if_neg hskip, hc]

/-- Per-entry stability of the warm run: against the cache produced by the
first run, every entry reproduces its first-run lines and is never
decoded. -/
theorem entryLines_stable (c : Codec) (saved : List String)
    (entries : List DirEntry)
    (hfc : fullContrib c saved entries = true)
    (hinj : hashInjOn c entries = true)
    (hdis : hashAvoidsColors c saved entries = true)
    (e : DirEntry) (he : e ∈ entries) :
    entryLines c (entries.flatMap (entryLines c saved)) e =
      entryLines c saved e ∧
    entryDecodes c (entries.flatMap (entryLines c saved)) e = 0 := by
  by_cases hskip : e.isFile = false ∨ e.name = ".gitkeep"
  · constructor
    · unfold entryLines
      rw [if_pos hskip, if_pos hskip]
    · unfold entryDecodes
      rw [if_pos hskip]
  · have hf : e.isFile = true := by
      cases hbb : e.isFile
      · exact absurd (Or.inl hbb) hskip
      · rfl
    have hn : e.name ≠ ".gitkeep" := fun hh => hskip (Or.inr hh)
    cases hc : e.contents with
    | none =>
      constructor
      · unfold entryLines
        rw [if_neg hskip, if_neg hskip, hc]
      · unfold entryDecodes
        rw [if_neg hskip, hc]
    | some b =>
      have hlen := fullContrib_spec c saved entries hfc e he hf hn b hc
      rcases entryLines_shape c saved e with hnil | ⟨b', hb', hh', hone | ⟨col, htwo⟩⟩
      · rw [hnil] at hlen
        simp at hlen
      · rw [hone] at hlen
        simp at hlen
      · rw [hc] at hb'
        have hbb : b = b' := Option.some_inj.mp hb'
        subst hbb
        have hmem : c.hash b ∈ entries.flatMap (entryLines c saved) :=
          List.mem_flatMap.mpr ⟨e, he, by rw [htwo]; simp⟩
        have hflat := flat_pairs c saved entries hfc
        have hpair : (c.hash b, col) ∈ runPairs c saved entries :=
          List.mem_filterMap.mpr ⟨e, he, entryPairOf_of_lines_two c saved e _ _ htwo⟩
        have hfun : ∀ p ∈ runPairs c saved entries, p.1 = c.hash b → p.2 = col :=
          fun p hp hp1 =>
            runPairs_functional c saved entries hinj p hp (c.hash b, col) hpair hp1
        have hdis' : ∀ p ∈ runPairs c saved entries, c.hash b ≠ p.2 :=
          fun p hp => hashAvoidsColors_spec c saved entries hdis e he b hc p hp
        have hlook := pairs_lookup (c.hash b) col (runPairs c saved entries)
          hpair hfun hdis'
        constructor
        · have hL : entryLines c (entries.flatMap (entryLines c saved)) e =
              [c.hash b, col] := by
            rw [entryLines_eval c (entries.flatMap (entryLines c saved)) e b hskip hc,
              if_neg (not_not_intro hmem), hflat, hlook]
          rw [hL, htwo]
        · unfold entryDecodes
          rw [if_neg hskip, hc]
          dsimp only
          rw [if_neg (not_not_intro hmem)]

theorem flatMapCongr {α β : Type} :
    ∀ (l : List α) (f g : α → List β), (∀ a ∈ l, f a = g a) →
      l.flatMap f = l.flatMap g
  | [], _, _, _ => rfl
  | a :: rest, f, g, h => by
    rw [List.flatMap_cons, List.flatMap_cons, h a (List.mem_cons_self _ _),
      flatMapCongr rest f g fun x hx => h x (List.mem_cons_of_mem _ hx)]

/-- C5 (amended): a second reconciliation run against the cache produced
by the first — with the directory unchanged — reproduces that cache
line-for-line, performs zero decodes, and does not rewrite the cache
file, provided every regular readable non-placeholder file produced a
complete pair in the first run, file hashes are injective and collide
with no stored color line.  (A file that failed decoding and was kept is
re-decoded on every run, as the counterexample shows.) -/
theorem C5_amended (c : Codec) (flag : Bool) (saved : List String)
    (entries : List DirEntry)
    (hfc : fullContrib c saved entries = true)
    (hinj : hashInjOn c entries = true)
    (hdis : hashAvoidsColors c saved entries = true) :
    (get_mosaic_palette_run c flag
        ((get_mosaic_palette_run c flag saved entries).cache) entries).cache =
      (get_mosaic_palette_run c flag saved entries).cache ∧
    (get_mosaic_palette_run c flag
        ((get_mosaic_palette_run c flag saved entries).cache) entries).decodes = 0 ∧
    cacheWritten c flag
      ((get_mosaic_palette_run c flag saved entries).cache) entries = false := by
  have hc1 : (get_mosaic_palette_run c flag saved entries).cache =
      entries.flatMap (entryLines c saved) := run_cache c flag saved entries
  have hcache : (get_mosaic_palette_run c flag
      ((get_mosaic_palette_run c flag saved entries).cache) entries).cache =
      (get_mosaic_palette_run c flag saved entries).cache := by
    rw [run_cache c flag _ entries, hc1]
    exact flatMapCongr entries _ _ fun e he =>
      (entryLines_stable c saved entries hfc hinj hdis e he).1
  refine ⟨hcache, ?_, ?_⟩
  · rw [run_decodes c flag _ entries]
    refine List.sum_eq_zero fun x hx => ?_
    obtain ⟨e, he, hex⟩ := List.mem_map.mp hx
    rw [← hex, hc1]
    exact (entryLines_stable c saved entries hfc hinj hdis e he).2
  · rw [cacheWritten, hcache]
    simp

/-- Test codec and directory for the warm-run witness. -/
def cw5 : Codec :=
  ⟨id, fun _ => some [(0, 0, 0)], fun _ => "s", fun _ => (0, 0, 0), some⟩

/-- C5 witness: two distinct valid tiles; the second run reproduces the
first run's cache, performs zero decodes, and does not rewrite the file. -/
theorem C5_amended_witness :
    fullContrib cw5 [] [⟨"a", some "A", true⟩, ⟨"b", some "B", true⟩] = true ∧
    ((get_mosaic_palette_run cw5 false
        ((get_mosaic_palette_run cw5 false []
          [⟨"a", some "A", true⟩, ⟨"b", some "B", true⟩]).cache)
        [⟨"a", some "A", true⟩, ⟨"b", some "B", true⟩]).cache =
      (get_mosaic_palette_run cw5 false []
        [⟨"a", some "A", true⟩, ⟨"b", some "B", true⟩]).cache ∧
    (get_mosaic_palette_run cw5 false
        ((get_mosaic_palette_run cw5 false []
          [⟨"a", some "A", true⟩, ⟨"b", some "B", true⟩]).cache)
        [⟨"a", some "A", true⟩, ⟨"b", some "B", true⟩]).decodes = 0 ∧
    cacheWritten cw5 false
      ((get_mosaic_palette_run cw5 false []
        [⟨"a", some "A", true⟩, ⟨"b", some "B", true⟩]).cache)
      [⟨"a", some "A", true⟩, ⟨"b", some "B", true⟩] = false) :=
  ⟨by decide,
    C5_amended cw5 false [] [⟨"a", some "A", true⟩, ⟨"b", some "B", true⟩]
      (by decide) (by decide) (by decide)⟩

/-- C5 counterexample: a directory holding one valid tile and one
undecodable file (kept, flag unset).  The first run records only the
valid tile; the second run, over the unchanged directory and the cache
the first run wrote, still performs one decode (the bad file is
re-attempted), refuting the zero-decode claim. -/
theorem C5_counterexample :
    (get_mosaic_palette_run cC9 false []
        [⟨"g1", some "G", true⟩, ⟨"bad", some "B", true⟩]).cache = ["G", "c"] ∧
    (get_mosaic_palette_run cC9 false
        ((get_mosaic_palette_run cC9 false []
          [⟨"g1", some "G", true⟩, ⟨"bad", some "B", true⟩]).cache)
        [⟨"g1", some "G", true⟩, ⟨"bad", some "B", true⟩]).decodes = 1 := by
  decide

end Mosaic
